import Mathlib

/-!
# Verification of the video2text detection pipeline

A shallow embedding of the core of the `video2text` repository
(`processor/video_processor`): the `JsonWriter` detection store
(`io/writer.py`), the `FrameExtractor` frame sampler (`io/extractor.py`)
and the recognition gate of `PaddleOCRWrapper.recognize` (`ocr/paddle.py`),
together with theorems settling the specification's claims about them.

Modelling conventions:
* Python floats are modelled as exact rationals (`ℚ`); binary floating-point
  representation artifacts are out of scope.
* Python strings are Lean `String`s; `str.strip()` is `pyStrip` and
  `str.lower()` is `pyLower`, defined below on the character list so that
  concrete instances evaluate inside the kernel.
* Python's builtin `round` (round-half-to-even at a decimal position) is
  `roundQ`, `int(...)` truncation toward zero is `qtrunc`, and floor
  division / modulus on integers are `Int.fdiv` / `Int.fmod`.
* Stateful objects become explicit state-passing on structures; printing
  and file writing are dropped, the written lines being returned as data.
-/

/-- Python's `str.strip()` with no argument: remove leading and trailing
whitespace (expressed on the character list so that it evaluates inside
the kernel). -/
def pyStrip (s : String) : String :=
  ⟨(((s.data.dropWhile Char.isWhitespace).reverse).dropWhile
      Char.isWhitespace).reverse⟩

/-- Python's `str.lower()`: lower-case every character. -/
def pyLower (s : String) : String :=
  ⟨s.data.map Char.toLower⟩

/-- Round a rational to the nearest integer, ties to even: the semantics of
Python's builtin `round` on an exact value. -/
def roundHalfEven (y : ℚ) : ℤ :=
  let f : ℤ := ⌊y⌋
  if y - (f : ℚ) < 1/2 then f
  else if (1/2 : ℚ) < y - (f : ℚ) then f + 1
  else if f % 2 = 0 then f else f + 1

/-- Python's `round(x, n)`: round to `n` decimal places, ties to even. -/
def roundQ (n : ℕ) (x : ℚ) : ℚ :=
  (roundHalfEven (x * (10 : ℚ) ^ n) : ℚ) / (10 : ℚ) ^ n

/-- Python's `int(x)` on a float: truncation toward zero. -/
def qtrunc (x : ℚ) : ℤ :=
  if 0 ≤ x then ⌊x⌋ else ⌈x⌉

/-- One stored OCR detection: the dictionary built by `JsonWriter.add`
(`io/writer.py`, lines 55-69), with the nested `bbox` dictionary flattened
into the six integer fields the code stores. -/
structure Detection where
  timestamp : ℚ
  bboxX1 : ℤ
  bboxY1 : ℤ
  bboxX2 : ℤ
  bboxY2 : ℤ
  bboxW : ℤ
  bboxH : ℤ
  text : String
  confidence : ℚ
  textLength : ℕ
  detectionId : ℕ
deriving DecidableEq, Repr

/-- The mutable state of a `JsonWriter`: the detection list `self.data` and
the `metadata["total_detections"]` counter (the only metadata field the
claims concern). -/
structure JsonWriterState where
  data : List Detection
  totalDetections : ℕ
deriving DecidableEq, Repr

/-- `JsonWriter.__init__`: empty data, zero recorded detections. -/
def initWriter : JsonWriterState := ⟨[], 0⟩

/-- `JsonWriter.add` (`io/writer.py`, lines 42-72): unconditionally builds a
detection dictionary — timestamp rounded to 3 decimals, confidence to 4,
box coordinates truncated to `int`, text stripped, `detection_id` set to
`len(self.data) + 1` — appends it and increments `total_detections`. -/
def JsonWriterState.add (s : JsonWriterState) (timestamp : ℚ)
    (bbox : ℚ × ℚ × ℚ × ℚ) (text : String) (confidence : ℚ) :
    JsonWriterState :=
  let x1 := bbox.1
  let y1 := bbox.2.1
  let x2 := bbox.2.2.1
  let y2 := bbox.2.2.2
  let d : Detection := {
    timestamp := roundQ 3 timestamp
    bboxX1 := qtrunc x1
    bboxY1 := qtrunc y1
    bboxX2 := qtrunc x2
    bboxY2 := qtrunc y2
    bboxW := qtrunc (x2 - x1)
    bboxH := qtrunc (y2 - y1)
    text := pyStrip text
    confidence := roundQ 4 confidence
    textLength := (pyStrip text).length
    detectionId := s.data.length + 1 }
  ⟨s.data ++ [d], s.totalDetections + 1⟩

/-- `JsonWriter.filter_by_confidence` (`io/writer.py`, lines 121-134):
keeps detections with `confidence >= min_confidence`; updates
`total_detections` only when at least one detection was removed. -/
def JsonWriterState.filterByConfidence (s : JsonWriterState)
    (minConfidence : ℚ) : JsonWriterState :=
  let newData := s.data.filter (fun d => minConfidence ≤ d.confidence)
  let filteredCount := s.data.length - newData.length
  if 0 < filteredCount then ⟨newData, newData.length⟩
  else ⟨newData, s.totalDetections⟩

/-! ## difflib.SequenceMatcher.ratio

`remove_duplicates` measures text similarity with
`SequenceMatcher(None, a, b).ratio()` from the Python standard library.
With `isjunk = None` and strings below the 200-character autojunk cutoff
(the only way the repository calls it), `find_longest_match` returns the
longest common contiguous block, preferring the smallest start in `a` and
then the smallest start in `b`, `get_matching_blocks` recurses on the
pieces left and right of that block, and `ratio` is `2*M / (len(a)+len(b))`
where `M` is the total size of all matching blocks (`1.0` when both
strings are empty). The recursion is expressed with a fuel argument
(`fuel = len(a)+len(b)` exceeds the recursion depth, which shrinks the
`a`-piece strictly at each level). -/

/-- Length of the longest common prefix of two character lists. -/
def commonPrefixLen : List Char → List Char → ℕ
  | a :: as, b :: bs => if a = b then commonPrefixLen as bs + 1 else 0
  | _, _ => 0

/-- `SequenceMatcher.find_longest_match` over whole strings (no junk):
the longest common contiguous block as `(start in a, start in b, size)`,
first in lexicographic `(i, j)` order among the longest. -/
def bestBlock (a b : List Char) : ℕ × ℕ × ℕ :=
  (List.range a.length).foldl (fun best i =>
    (List.range b.length).foldl (fun best j =>
      let k := commonPrefixLen (a.drop i) (b.drop j)
      if best.2.2 < k then (i, j, k) else best) best) (0, 0, 0)

/-- Total size of the matching blocks of `SequenceMatcher.get_matching_blocks`:
recursively take the longest match and recurse on both sides. -/
def matchingTotalF : ℕ → List Char → List Char → ℕ
  | 0, _, _ => 0
  | fuel + 1, a, b =>
    let ijk := bestBlock a b
    if ijk.2.2 = 0 then 0
    else
      matchingTotalF fuel (a.take ijk.1) (b.take ijk.2.1) + ijk.2.2 +
        matchingTotalF fuel (a.drop (ijk.1 + ijk.2.2)) (b.drop (ijk.2.1 + ijk.2.2))

/-- `SequenceMatcher(None, a, b).ratio()`. -/
def sequenceMatcherRatio (a b : String) : ℚ :=
  if a.length + b.length = 0 then 1
  else
    (2 * (matchingTotalF (a.length + b.length) a.data b.data : ℚ)) /
      ((a.length : ℚ) + (b.length : ℚ))

/-! ## JsonWriter.remove_duplicates (io/writer.py, lines 136-181) -/

/-- The duplicate test of the inner loop of `remove_duplicates`: the scan
skips entries farther than `time_threshold` away (`continue`) and calls two
entries duplicates when the case-insensitive similarity ratio reaches
`similarity_threshold`. -/
def isDupMatch (tthr sthr : ℚ) (cur ex : Detection) : Bool :=
  decide (|cur.timestamp - ex.timestamp| ≤ tthr) &&
    decide (sthr ≤ sequenceMatcherRatio (pyLower cur.text) (pyLower ex.text))

/-- One iteration of the outer loop of `remove_duplicates`: scan the
accepted list for the first duplicate of `cur`; on none append `cur`; on a
match with strictly smaller confidence, `list.remove` the matched entry
(first equal element) and append `cur`; otherwise drop `cur`. The inner
scan `break`s at the first match, so later accepted entries are never
examined. -/
def dedupStep (tthr sthr : ℚ) (acc : List Detection) (cur : Detection) :
    List Detection :=
  match acc.find? (isDupMatch tthr sthr cur) with
  | none => acc ++ [cur]
  | some e => if e.confidence < cur.confidence then acc.erase e ++ [cur] else acc

/-- The effect of `remove_duplicates` on the detection list: identity on
lists of at most one element, otherwise a left fold of `dedupStep` starting
from an empty accepted list. -/
def removeDuplicatesList (tthr sthr : ℚ) (data : List Detection) :
    List Detection :=
  if data.length ≤ 1 then data else data.foldl (dedupStep tthr sthr) []

/-- `JsonWriter.remove_duplicates`: rebuild the detection list and update
`total_detections` only when at least one detection was removed. -/
def JsonWriterState.removeDuplicates (s : JsonWriterState) (tthr sthr : ℚ) :
    JsonWriterState :=
  if s.data.length ≤ 1 then s
  else
    let fd := s.data.foldl (dedupStep tthr sthr) []
    if 0 < s.data.length - fd.length then ⟨fd, fd.length⟩
    else ⟨fd, s.totalDetections⟩

/-- `dedupStep` instrumented with a flag recording whether any candidate
ever replaced an accepted entry (the `filtered_data.remove`/`append` branch
was taken). -/
def dedupStepFlag (tthr sthr : ℚ) (p : List Detection × Bool)
    (cur : Detection) : List Detection × Bool :=
  match p.1.find? (isDupMatch tthr sthr cur) with
  | none => (p.1 ++ [cur], p.2)
  | some e =>
    if e.confidence < cur.confidence then (p.1.erase e ++ [cur], true)
    else (p.1, p.2)

/-- Whether a run of `remove_duplicates` on `data` performs at least one
replacement of an accepted entry by a higher-confidence duplicate. -/
def dedupReplacementOccurred (tthr sthr : ℚ) (data : List Detection) : Bool :=
  if data.length ≤ 1 then false
  else (data.foldl (dedupStepFlag tthr sthr) ([], false)).2

/-! ## Recognition gate (ocr/paddle.py, lines 83-96)

`PaddleOCRWrapper.recognize` walks the engine's raw results; the engine
itself is an external capability, so a raw result is modelled as the
`(poly, txt, score)` triple the loop consumes. -/

/-- One raw engine result: a polygon, the recognized text and a score. -/
structure RawItem where
  poly : List (ℚ × ℚ)
  text : String
  score : ℚ
deriving DecidableEq, Repr

/-- The axis-aligned box `(min xs, min ys, max xs, max ys)` over a polygon.
On an empty polygon the source's `min()` would raise; the engine contract
always supplies points, so the `(0,0,0,0)` branch is unreachable. -/
def bboxOfPoly : List (ℚ × ℚ) → ℚ × ℚ × ℚ × ℚ
  | [] => (0, 0, 0, 0)
  | p :: ps =>
    (ps.foldl (fun m q => min m q.1) p.1,
     ps.foldl (fun m q => min m q.2) p.2,
     ps.foldl (fun m q => max m q.1) p.1,
     ps.foldl (fun m q => max m q.2) p.2)

/-- The filtering/yield loop of `recognize`: an item is skipped when
`not txt or score < 0.30` (`not txt` is true only for the empty string);
a surviving item is yielded as `(bbox, txt.strip(), score)`. -/
def recognizeGate (items : List RawItem) :
    List ((ℚ × ℚ × ℚ × ℚ) × String × ℚ) :=
  items.filterMap (fun it =>
    if it.text = "" ∨ it.score < 3/10 then none
    else some (bboxOfPoly it.poly, pyStrip it.text, it.score))

/-! ## FrameExtractor (io/extractor.py) -/

/-- The yields of the decode loop of `FrameExtractor.__iter__` over a
source whose successive decodable frames are `frames`: the decode position
counts every frame, and a pair is yielded when `frame_idx % step == 0`. -/
def samplesFrom (step : ℕ) {α : Type} (frames : List α) : List (ℕ × α) :=
  frames.enum.filter (fun p => p.1 % step == 0)

/-- State of a `FrameExtractor`: the immutable video source content, the
coerced stride, and the capture handle — `some rest` when open with `rest`
still to be decoded, `none` when released. -/
structure ExtractorState (α : Type) where
  source : List α
  step : ℕ
  cap : Option (List α)
deriving DecidableEq, Repr

/-- `FrameExtractor.__init__`: coerce the stride with `max(1, step)` and
open the capture at the start of the source. -/
def mkExtractor {α : Type} (source : List α) (step : ℕ) : ExtractorState α :=
  ⟨source, max 1 step, some source⟩

/-- Running `__iter__` to exhaustion: if the capture was released, the
method re-opens the video (`_init_video`) and decodes from the start;
frames are consumed until the source reports no more, and the `finally`
block releases the capture. Returns the yielded samples and the state
after termination. -/
def ExtractorState.iterateAll {α : Type} (s : ExtractorState α) :
    List (ℕ × α) × ExtractorState α :=
  let frames := s.cap.getD s.source
  (samplesFrom s.step frames, { s with cap := none })

/-! ## Grouped-text export (io/writer.py, lines 220-262) -/

/-- Zero-pad an integer to width 2: Python's `f"{n:02d}"`. -/
def pad2 (n : ℤ) : String :=
  if 0 ≤ n ∧ n < 10 then "0" ++ toString n else toString n

/-- Zero-pad an integer to width 3: Python's `f"{n:03d}"`. -/
def pad3 (n : ℤ) : String :=
  if 0 ≤ n ∧ n < 10 then "00" ++ toString n
  else if 0 ≤ n ∧ n < 100 then "0" ++ toString n
  else toString n

/-- `JsonWriter._format_mmss`: milliseconds via Python `round`, then floor
division and modulus (the `seconds is None` guard has no counterpart:
timestamps are always present here). -/
def fmtMMSS (showMs : Bool) (seconds : ℚ) : String :=
  let totalMs : ℤ := roundHalfEven (seconds * 1000)
  let totalS : ℤ := totalMs.fdiv 1000
  let mm : ℤ := totalS.fdiv 60
  let ss : ℤ := totalS.fmod 60
  if showMs then
    "[" ++ pad2 mm ++ ":" ++ pad2 ss ++ "." ++ pad3 (totalMs.fmod 1000) ++ "]"
  else "[" ++ pad2 mm ++ ":" ++ pad2 ss ++ "]"

/-- Insertion into the `OrderedDict` bucket map of `export_grouped_text`:
append the text to the bucket of an existing key, else append a fresh
bucket at the end. -/
def bucketAdd : List (ℚ × List String) → ℚ → String → List (ℚ × List String)
  | [], ts, txt => [(ts, [txt])]
  | (t, xs) :: rest, ts, txt =>
    if t = ts then (t, xs ++ [txt]) :: rest
    else (t, xs) :: bucketAdd rest ts txt

/-- The timestamp-sorted-stable order of `sorted(self.data, key=ts)`:
Python's sort is stable, as is insertion sort on a total preorder. -/
def sortByTimestamp (data : List Detection) : List Detection :=
  data.insertionSort (fun a b => a.timestamp ≤ b.timestamp)

/-- The lines written by `JsonWriter.export_grouped_text` (file-path
handling dropped): sort by timestamp, bucket non-empty stripped texts by
exact timestamp value in first-seen order, then render each bucket as
`stamp ++ " - " ++ sep.join(texts)`. -/
def exportGroupedLines (showMs : Bool) (sep : String)
    (data : List Detection) : List String :=
  ((sortByTimestamp data).foldl
    (fun bs d =>
      if pyStrip d.text = "" then bs
      else bucketAdd bs d.timestamp (pyStrip d.text))
    []).map
    (fun b => fmtMMSS showMs b.1 ++ " - " ++ String.intercalate sep b.2)

/-! ## Spec-side description of the grouped transcript (for claim C7) -/

/-- Distinct elements of a list, keeping first occurrences in order. -/
def keysDedupFirst : List ℚ → List ℚ
  | [] => []
  | t :: r => t :: (keysDedupFirst r).filter (fun x => x ≠ t)

/-- The stamp the claim describes: the timestamp floored to whole seconds,
rendered as `[MM:SS]`. -/
def specStamp (ts : ℚ) : String :=
  let t : ℤ := ⌊ts⌋
  "[" ++ pad2 (t.fdiv 60) ++ ":" ++ pad2 (t.fmod 60) ++ "]"

/-- The grouped transcript as claim C7 words it: one line per distinct
timestamp among the detections with non-empty trimmed text, in ascending
timestamp order, each line the floor-based `[MM:SS]` stamp, `" - "`, and
that bucket's trimmed texts joined with the separator, the bucket keeping
insertion order. -/
def specGroupedLines (sep : String) (data : List Detection) : List String :=
  let keep := data.filter (fun d => pyStrip d.text ≠ "")
  let sortedKeys :=
    (keysDedupFirst (keep.map (fun d => d.timestamp))).insertionSort
      (fun a b => a ≤ b)
  sortedKeys.map (fun t =>
    specStamp t ++ " - " ++
      String.intercalate sep
        ((keep.filter (fun d => d.timestamp = t)).map (fun d => pyStrip d.text)))

/-- The `(timestamp, stripped text)` stream that actually reaches the
bucket map of `export_grouped_text`: detections whose stripped text is
empty are skipped. -/
def keptPairs (l : List Detection) : List (ℚ × String) :=
  l.filterMap (fun d =>
    if pyStrip d.text = "" then none
    else some (d.timestamp, pyStrip d.text))

/-- The texts held by the first bucket with key `t` (empty list when there
is none): the reading view of the `OrderedDict`. -/
def bucketVal (bs : List (ℚ × List String)) (t : ℚ) : List String :=
  ((bs.find? (fun b => b.1 = t)).map Prod.snd).getD []

instance : IsTotal Detection (fun a b : Detection => a.timestamp ≤ b.timestamp) :=
  ⟨fun a b => le_total a.timestamp b.timestamp⟩

instance : IsTrans Detection (fun a b : Detection => a.timestamp ≤ b.timestamp) :=
  ⟨fun _ _ _ hab hbc => le_trans hab hbc⟩

/-- A rational that is a whole number of milliseconds, as every timestamp
stored by `add` is (it is rounded to 3 decimal places). -/
def MilliInt (q : ℚ) : Prop := ∃ z : ℤ, q * 1000 = z

/-- The writer states reachable through the public mutating operations:
exactly the stores a pipeline can ever hold. -/
inductive ReachableWriter : JsonWriterState → Prop
  | init : ReachableWriter initWriter
  | add (s : JsonWriterState) (timestamp : ℚ) (bbox : ℚ × ℚ × ℚ × ℚ)
      (text : String) (confidence : ℚ) :
      ReachableWriter s → ReachableWriter (s.add timestamp bbox text confidence)
  | filter (s : JsonWriterState) (minConfidence : ℚ) :
      ReachableWriter s → ReachableWriter (s.filterByConfidence minConfidence)
  | dedup (s : JsonWriterState) (tthr sthr : ℚ) :
      ReachableWriter s → ReachableWriter (s.removeDuplicates tthr sthr)

/-- A concrete detection with the given timestamp, text, confidence and id,
all box fields zero: used to build concrete store states in examples. -/
def mkDet (ts : ℚ) (txt : String) (conf : ℚ) (id : ℕ) : Detection :=
  { timestamp := ts, bboxX1 := 0, bboxY1 := 0, bboxX2 := 0, bboxY2 := 0,
    bboxW := 0, bboxH := 0, text := txt, confidence := conf,
    textLength := txt.length, detectionId := id }

/- The Batteries rational arithmetic operations are sealed; re-enable
unfolding so that closed statements about concrete stores can be settled
by kernel evaluation (`decide`). -/
unseal Rat.add Rat.mul Rat.inv Rat.sub Rat.ofScientific

/-! ## Basic facts about the writer operations -/

theorem filterByConfidence_data (s : JsonWriterState) (c : ℚ) :
    (s.filterByConfidence c).data
      = s.data.filter (fun d => c ≤ d.confidence) := by
  unfold JsonWriterState.filterByConfidence
  dsimp only
  split <;> rfl

theorem removeDuplicates_data (s : JsonWriterState) (tthr sthr : ℚ) :
    (s.removeDuplicates tthr sthr).data
      = removeDuplicatesList tthr sthr s.data := by
  unfold JsonWriterState.removeDuplicates removeDuplicatesList
  dsimp only
  split
  · rfl
  · split <;> rfl

theorem length_filter_confidence_split (l : List Detection) (c : ℚ) :
    (l.filter (fun d => c ≤ d.confidence)).length
        + (l.filter (fun d => d.confidence < c)).length
      = l.length := by
  induction l with
  | nil => rfl
  | cons x xs ih =>
    by_cases h : c ≤ x.confidence
    · simp only [List.filter_cons, List.length_cons]
      rw [if_pos (by simpa using h), if_neg (by simpa using not_lt.mpr h)]
      simp only [List.length_cons]
      omega
    · simp only [List.filter_cons, List.length_cons]
      rw [if_neg (by simpa using h), if_pos (by simpa using not_le.mp h)]
      simp only [List.length_cons]
      omega

theorem dedupStep_length_le (tthr sthr : ℚ) (acc : List Detection)
    (cur : Detection) :
    (dedupStep tthr sthr acc cur).length ≤ acc.length + 1 := by
  unfold dedupStep
  cases hf : acc.find? (isDupMatch tthr sthr cur) with
  | none => simp
  | some e =>
    dsimp only
    split
    · have := (acc.erase_sublist e).length_le
      simp only [List.length_append, List.length_singleton]
      omega
    · omega

theorem dedupFold_length_le (tthr sthr : ℚ) :
    ∀ (L acc : List Detection),
      (L.foldl (dedupStep tthr sthr) acc).length ≤ acc.length + L.length := by
  intro L
  induction L with
  | nil => intro acc; simp
  | cons x xs ih =>
    intro acc
    have h1 := ih (dedupStep tthr sthr acc x)
    have h2 := dedupStep_length_le tthr sthr acc x
    simp only [List.foldl_cons, List.length_cons]
    omega

/-- Claim C9: after `filter_by_confidence(c)` every remaining detection has
confidence at least `c`, the number removed (count before minus count
after) equals the number of detections with confidence strictly below `c`
before the call, and the surviving list is a sublist of the original (no
detection is added, reordered or modified). -/
theorem filterByConfidence_spec (s : JsonWriterState) (c : ℚ) :
    (∀ d ∈ (s.filterByConfidence c).data, c ≤ d.confidence) ∧
    s.data.length - (s.filterByConfidence c).data.length
        = (s.data.filter (fun d => d.confidence < c)).length ∧
    (s.filterByConfidence c).data.Sublist s.data := by
  rw [filterByConfidence_data]
  refine ⟨?_, ?_, List.filter_sublist s.data⟩
  · intro d hd
    have := List.of_mem_filter hd
    exact of_decide_eq_true this
  · have h := length_filter_confidence_split s.data c
    omega

/-- Witness for C9 at a concrete store: one of two detections survives the
threshold `1/2`, and exactly the one below it is counted as removed. -/
theorem filterByConfidence_spec_witness :
    (∀ d ∈ (JsonWriterState.mk [mkDet 0 "a" (1/4) 1, mkDet 0 "b" (3/4) 2]
        2 |>.filterByConfidence (1/2)).data, (1/2 : ℚ) ≤ d.confidence) ∧
    ((JsonWriterState.mk [mkDet 0 "a" (1/4) 1, mkDet 0 "b" (3/4) 2] 2).data.length
        - (JsonWriterState.mk [mkDet 0 "a" (1/4) 1, mkDet 0 "b" (3/4) 2]
            2 |>.filterByConfidence (1/2)).data.length
      = ((JsonWriterState.mk [mkDet 0 "a" (1/4) 1, mkDet 0 "b" (3/4) 2]
          2).data.filter (fun d => d.confidence < (1/2 : ℚ))).length) ∧
    (JsonWriterState.mk [mkDet 0 "a" (1/4) 1, mkDet 0 "b" (3/4) 2]
        2 |>.filterByConfidence (1/2)).data.Sublist
      (JsonWriterState.mk [mkDet 0 "a" (1/4) 1, mkDet 0 "b" (3/4) 2] 2).data :=
  filterByConfidence_spec
    (JsonWriterState.mk [mkDet 0 "a" (1/4) 1, mkDet 0 "b" (3/4) 2] 2) (1/2)

/-- Claim C10: `metadata["total_detections"]` equals the number of stored
detections in a fresh store, and each of `add`, `filter_by_confidence` and
`remove_duplicates` preserves that equality (the code skips the metadata
update when nothing was removed, which is exactly when the length did not
change). -/
theorem totalDetections_invariant :
    initWriter.totalDetections = initWriter.data.length ∧
    (∀ (s : JsonWriterState) (ts : ℚ) (bbox : ℚ × ℚ × ℚ × ℚ) (txt : String)
        (conf : ℚ), s.totalDetections = s.data.length →
      (s.add ts bbox txt conf).totalDetections
        = (s.add ts bbox txt conf).data.length) ∧
    (∀ (s : JsonWriterState) (c : ℚ), s.totalDetections = s.data.length →
      (s.filterByConfidence c).totalDetections
        = (s.filterByConfidence c).data.length) ∧
    (∀ (s : JsonWriterState) (tthr sthr : ℚ),
        s.totalDetections = s.data.length →
      (s.removeDuplicates tthr sthr).totalDetections
        = (s.removeDuplicates tthr sthr).data.length) := by
  refine ⟨rfl, ?_, ?_, ?_⟩
  · intro s ts bbox txt conf h
    simp [JsonWriterState.add, h]
  · intro s c h
    unfold JsonWriterState.filterByConfidence
    dsimp only
    have hle := List.length_filter_le (fun d => decide (c ≤ d.confidence)) s.data
    split
    · rfl
    · next hno =>
      simp only [not_lt, Nat.le_zero, Nat.sub_eq_zero_iff_le] at hno
      dsimp only
      omega
  · intro s tthr sthr h
    unfold JsonWriterState.removeDuplicates
    dsimp only
    split
    · exact h
    · have hle := dedupFold_length_le tthr sthr s.data []
      simp only [List.length_nil, Nat.zero_add] at hle
      split
      · rfl
      · next hno =>
        simp only [not_lt, Nat.le_zero, Nat.sub_eq_zero_iff_le] at hno
        dsimp only
        omega

/-- Witness for C10: the preservation clauses applied to a concrete store
whose counter matches its contents. -/
theorem totalDetections_invariant_witness :
    ((initWriter.add 0 (0, 0, 0, 0) "x" 1).totalDetections
      = (initWriter.add 0 (0, 0, 0, 0) "x" 1).data.length) ∧
    ((initWriter.filterByConfidence (1/2)).totalDetections
      = (initWriter.filterByConfidence (1/2)).data.length) ∧
    ((initWriter.removeDuplicates 1 (9/10)).totalDetections
      = (initWriter.removeDuplicates 1 (9/10)).data.length) :=
  ⟨totalDetections_invariant.2.1 initWriter 0 (0, 0, 0, 0) "x" 1 rfl,
   totalDetections_invariant.2.2.1 initWriter (1/2) rfl,
   totalDetections_invariant.2.2.2 initWriter 1 (9/10) rfl⟩

/-- Counterexample to claim C1: `detection_id` is computed as
`len(self.data) + 1`, so after `filter_by_confidence` empties the store,
a later `add` hands out id `1` again — the id created by the earlier `add`
is reused, and the later call's id is not strictly greater. -/
theorem detectionId_reuse_cex :
    ((initWriter.add 0 (0, 0, 0, 0) "a" 0).data.map
        (fun d => d.detectionId) = [1]) ∧
    ((((initWriter.add 0 (0, 0, 0, 0) "a" 0).filterByConfidence
          (1/2)).add 0 (0, 0, 0, 0) "b" (9/10)).data.map
        (fun d => d.detectionId) = [1]) := by
  constructor <;> decide

/-- Claim C1, amended: `add` assigns `detection_id = len(self.data) + 1`,
the current store size plus one. Ids therefore increase strictly across
consecutive `add` calls with no removal in between, but after a removal
shrinks the store, later `add` calls reuse earlier ids. -/
theorem add_detectionId_assignment (s : JsonWriterState) (ts : ℚ)
    (bbox : ℚ × ℚ × ℚ × ℚ) (txt : String) (conf : ℚ) :
    (s.add ts bbox txt conf).data.map (fun d => d.detectionId)
      = s.data.map (fun d => d.detectionId) ++ [s.data.length + 1] := by
  simp [JsonWriterState.add]

/-- Counterexample to claim C2: `add` has no empty-text rejection; adding
a whitespace-only text appends a detection whose stored text is empty and
changes the store. -/
theorem add_whitespace_cex :
    pyStrip " " = "" ∧
    (initWriter.add 0 (0, 0, 0, 0) " " (1/2)).data.length = 1 ∧
    (initWriter.add 0 (0, 0, 0, 0) " " (1/2)).data.map
        (fun d => d.text) = [""] := by
  refine ⟨rfl, ?_, ?_⟩ <;> decide

/-- Claim C2, amended: `add` appends unconditionally; when the text trims
to empty it still appends one detection, whose stored (stripped) text is
the empty string, and the detection count grows by one. -/
theorem add_empty_text_appends (s : JsonWriterState) (ts : ℚ)
    (bbox : ℚ × ℚ × ℚ × ℚ) (txt : String) (conf : ℚ)
    (h : pyStrip txt = "") :
    (s.add ts bbox txt conf).data.map (fun d => d.text)
        = s.data.map (fun d => d.text) ++ [""] ∧
    (s.add ts bbox txt conf).data.length = s.data.length + 1 := by
  constructor
  · simp [JsonWriterState.add, h]
  · simp [JsonWriterState.add]

/-- Witness for the amended C2 at the single-space text. -/
theorem add_empty_text_appends_witness :
    (initWriter.add 0 (0, 0, 0, 0) " " (1/2)).data.map
        (fun d => d.text) = initWriter.data.map (fun d => d.text) ++ [""] ∧
    (initWriter.add 0 (0, 0, 0, 0) " " (1/2)).data.length
      = initWriter.data.length + 1 :=
  add_empty_text_appends initWriter 0 (0, 0, 0, 0) " " (1/2) (by decide)

/-- Counterexample to claim C8: after the first full iteration releases
the capture, iterating the same extractor again re-opens the source inside
`__iter__` (`if not self.cap ...: self._init_video()`) and replays the
whole sample sequence instead of yielding nothing. -/
theorem extractor_restart_cex :
    (mkExtractor [(0 : ℕ)] 1).iterateAll.2.iterateAll.1 = [(0, 0)] ∧
    (mkExtractor [(0 : ℕ)] 1).iterateAll.2.iterateAll.1 ≠ [] := by
  constructor <;> decide

/-- Claim C8, amended: a finished iteration leaves the capture released,
but the iterator is restartable, not single-pass: iterating the same
extractor again re-opens the source and yields the full sample sequence
again. -/
theorem extractor_restart {α : Type} (src : List α) (st : ℕ) :
    ((mkExtractor src st).iterateAll.2).cap = none ∧
    ((mkExtractor src st).iterateAll.2).iterateAll.1
      = (mkExtractor src st).iterateAll.1 :=
  ⟨rfl, rfl⟩

theorem range_filter_mod (s : ℕ) (hs : 0 < s) :
    ∀ N, (List.range N).filter (fun i => i % s == 0)
      = (List.range ((N + s - 1) / s)).map (fun k => k * s) := by
  intro N
  induction N with
  | zero =>
    have h0 : (s - 1) / s = 0 := Nat.div_eq_of_lt (by omega)
    simp [h0]
  | succ N ih =>
    rw [List.range_succ, List.filter_append, ih]
    have hq : s * (N / s) + N % s = N := Nat.div_add_mod N s
    have hr : N % s < s := Nat.mod_lt _ hs
    have hmulsucc : s * (N / s + 1) = s * (N / s) + s := Nat.mul_succ s (N / s)
    by_cases hmod : N % s = 0
    · have hzero : (s - 1) / s = 0 := Nat.div_eq_of_lt (by omega)
      have hA : (N + s - 1) / s = N / s := by
        have he : N + s - 1 = s * (N / s) + (s - 1) := by omega
        rw [he, Nat.mul_add_div hs, hzero, Nat.add_zero]
      have hB : (N + 1 + s - 1) / s = N / s + 1 := by
        have he : N + 1 + s - 1 = s * (N / s + 1) + 0 := by omega
        rw [he, Nat.mul_add_div hs, Nat.zero_div, Nat.add_zero]
      rw [hA, hB, List.range_succ, List.map_append]
      simp only [List.filter_cons, List.filter_nil]
      rw [if_pos (by simpa using hmod)]
      have hcomm : N / s * s = s * (N / s) := Nat.mul_comm (N / s) s
      have hNs : N / s * s = N := by omega
      simp [hNs]
    · have hzero : (N % s - 1) / s = 0 := Nat.div_eq_of_lt (by omega)
      have hA : (N + s - 1) / s = N / s + 1 := by
        have he : N + s - 1 = s * (N / s + 1) + (N % s - 1) := by omega
        rw [he, Nat.mul_add_div hs, hzero, Nat.add_zero]
      have hB : (N + 1 + s - 1) / s = N / s + 1 := by
        have hzero2 : N % s / s = 0 := Nat.div_eq_of_lt hr
        have he : N + 1 + s - 1 = s * (N / s + 1) + N % s := by omega
        rw [he, Nat.mul_add_div hs, hzero2, Nat.add_zero]
      rw [hA, hB]
      simp only [List.filter_cons, List.filter_nil]
      rw [if_neg (by simpa using hmod)]
      simp

/-- Claim C6: over a source of `N` decodable frames, a sampler built with
stride `s ≥ 1` yields, in one full iteration, samples whose frame indices
are `0, s, 2s, …` in increasing order, and exactly `⌈N / s⌉ = (N+s-1)/s`
of them. -/
theorem frameSampler_spec {α : Type} (s : ℕ) (hs : 1 ≤ s)
    (frames : List α) :
    ((mkExtractor frames s).iterateAll.1.map Prod.fst
        = (List.range ((frames.length + s - 1) / s)).map (fun k => k * s)) ∧
    (mkExtractor frames s).iterateAll.1.length
        = (frames.length + s - 1) / s := by
  have hmax : max 1 s = s := Nat.max_eq_right hs
  have hsamples : (mkExtractor frames s).iterateAll.1
      = frames.enum.filter (fun p => p.1 % s == 0) := by
    show samplesFrom (max 1 s) frames = _
    rw [hmax]
    rfl
  have hfst : (mkExtractor frames s).iterateAll.1.map Prod.fst
      = (List.range ((frames.length + s - 1) / s)).map (fun k => k * s) := by
    rw [hsamples]
    have hcomm : (frames.enum.filter (fun p => p.1 % s == 0)).map Prod.fst
        = (frames.enum.map Prod.fst).filter (fun i => i % s == 0) := by
      rw [List.filter_map]
      rfl
    rw [hcomm, List.enum_map_fst, range_filter_mod s hs]
  refine ⟨hfst, ?_⟩
  have := congrArg List.length hfst
  simpa using this

/-- Witness for C6: five frames at stride two give three samples, at
indices 0, 2 and 4. -/
theorem frameSampler_spec_witness :
    (1 ≤ 2) ∧
    (((mkExtractor [10, 20, 30, 40, 50] 2).iterateAll.1.map Prod.fst
        = (List.range (([10, 20, 30, 40, 50].length + 2 - 1) / 2)).map
            (fun k => k * 2)) ∧
      (mkExtractor [10, 20, 30, 40, 50] 2).iterateAll.1.length
        = ([10, 20, 30, 40, 50].length + 2 - 1) / 2) :=
  ⟨by decide, frameSampler_spec 2 (by decide) [10, 20, 30, 40, 50]⟩

theorem find?_append_first {α : Type} (p : α → Bool) :
    ∀ (pre : List α) (e : α) (post : List α),
      (∀ x ∈ pre, p x = false) → p e = true →
      (pre ++ e :: post).find? p = some e := by
  intro pre
  induction pre with
  | nil =>
    intro e post _ hp
    simpa using List.find?_cons_of_pos post hp
  | cons a as ih =>
    intro e post h hp
    rw [List.cons_append, List.find?_cons_of_neg]
    · exact ih e post (fun x hx => h x (List.mem_cons_of_mem a hx)) hp
    · simp [h a (List.mem_cons_self a as)]

/-- Claim C5: when the accepted list is `pre ++ e :: post`, no entry of
`pre` matches the candidate, and `e` does: the scan stops at `e`
(regardless of `post`); if the candidate's confidence is strictly higher,
`e` is removed and the candidate appended, otherwise — including equal
confidence — the accepted list is unchanged and the candidate is
discarded. -/
theorem dedupStep_first_match (tthr sthr : ℚ) (cur e : Detection)
    (pre post : List Detection)
    (hpre : ∀ x ∈ pre, isDupMatch tthr sthr cur x = false)
    (he : isDupMatch tthr sthr cur e = true)
    (hnotin : e ∉ pre) :
    dedupStep tthr sthr (pre ++ e :: post) cur =
      if e.confidence < cur.confidence then (pre ++ post) ++ [cur]
      else pre ++ e :: post := by
  unfold dedupStep
  rw [find?_append_first _ pre e post hpre he]
  dsimp only
  split_ifs with hconf
  · rw [List.erase_append_right _ hnotin, List.erase_cons_head]
  · rfl

/-- Witness for C5 at concrete detections: the candidate `"abcd"` skips a
non-matching accepted entry, matches `"abc"` first, and having strictly
higher confidence replaces it, the replacement being appended at the end;
the later accepted entry `"ab"` is never examined. -/
theorem dedupStep_first_match_witness :
    (∀ x ∈ [mkDet 0 "zz" 1 1],
      isDupMatch 1 (3/5) (mkDet 0 "abcd" (9/10) 3) x = false) ∧
    isDupMatch 1 (3/5) (mkDet 0 "abcd" (9/10) 3) (mkDet 0 "abc" (1/2) 2)
      = true ∧
    (mkDet 0 "abc" (1/2) 2) ∉ [mkDet 0 "zz" 1 1] ∧
    dedupStep 1 (3/5) ([mkDet 0 "zz" 1 1] ++ (mkDet 0 "abc" (1/2) 2) ::
        [mkDet 0 "ab" 1 4]) (mkDet 0 "abcd" (9/10) 3) =
      if (mkDet 0 "abc" (1/2) 2).confidence
          < (mkDet 0 "abcd" (9/10) 3).confidence then
        ([mkDet 0 "zz" 1 1] ++ [mkDet 0 "ab" 1 4]) ++ [mkDet 0 "abcd" (9/10) 3]
      else [mkDet 0 "zz" 1 1] ++ (mkDet 0 "abc" (1/2) 2) :: [mkDet 0 "ab" 1 4] :=
  ⟨by decide, by decide, by decide,
   dedupStep_first_match 1 (3/5) (mkDet 0 "abcd" (9/10) 3)
     (mkDet 0 "abc" (1/2) 2) [mkDet 0 "zz" 1 1] [mkDet 0 "ab" 1 4]
     (by decide) (by decide) (by decide)⟩

theorem dedupStepFlag_fst (tthr sthr : ℚ) (acc : List Detection) (b : Bool)
    (cur : Detection) :
    (dedupStepFlag tthr sthr (acc, b) cur).1 = dedupStep tthr sthr acc cur := by
  unfold dedupStepFlag dedupStep
  cases acc.find? (isDupMatch tthr sthr cur) with
  | none => rfl
  | some e =>
    dsimp only
    split_ifs <;> rfl

theorem dedupFoldFlag_true (tthr sthr : ℚ) :
    ∀ (L acc : List Detection),
      (L.foldl (dedupStepFlag tthr sthr) (acc, true)).2 = true := by
  intro L
  induction L with
  | nil => intro acc; rfl
  | cons x xs ih =>
    intro acc
    rw [List.foldl_cons]
    have h : dedupStepFlag tthr sthr (acc, true) x
        = ((dedupStepFlag tthr sthr (acc, true) x).1, true) := by
      unfold dedupStepFlag
      cases acc.find? (isDupMatch tthr sthr x) with
      | none => rfl
      | some e =>
        dsimp only
        split_ifs <;> rfl
    rw [h]
    exact ih _

theorem dedupFold_clean (tthr sthr : ℚ) :
    ∀ (L acc : List Detection),
      acc.Pairwise (fun a b => isDupMatch tthr sthr b a = false) →
      (L.foldl (dedupStepFlag tthr sthr) (acc, false)).2 = false →
      (L.foldl (dedupStep tthr sthr) acc).Pairwise
        (fun a b => isDupMatch tthr sthr b a = false) := by
  intro L
  induction L with
  | nil =>
    intro acc hc _
    exact hc
  | cons x xs ih =>
    intro acc hc hflag
    rw [List.foldl_cons] at hflag ⊢
    cases hf : acc.find? (isDupMatch tthr sthr x) with
    | none =>
      have hstep : dedupStep tthr sthr acc x = acc ++ [x] := by
        unfold dedupStep
        rw [hf]
      have hstepf : dedupStepFlag tthr sthr (acc, false) x = (acc ++ [x], false) := by
        unfold dedupStepFlag
        rw [hf]
      rw [hstep]
      rw [hstepf] at hflag
      refine ih (acc ++ [x]) ?_ hflag
      rw [List.pairwise_append]
      refine ⟨hc, List.pairwise_singleton _ _, ?_⟩
      intro a ha y hy
      have hne := List.find?_eq_none.mp hf a ha
      simp only [List.mem_singleton] at hy
      subst hy
      simpa using hne
    | some e =>
      by_cases hconf : e.confidence < x.confidence
      · have hstepf : dedupStepFlag tthr sthr (acc, false) x
            = (acc.erase e ++ [x], true) := by
          unfold dedupStepFlag
          rw [hf]
          dsimp only
          rw [if_pos hconf]
        rw [hstepf, dedupFoldFlag_true] at hflag
        exact absurd hflag (by simp)
      · have hstep : dedupStep tthr sthr acc x = acc := by
          unfold dedupStep
          rw [hf]
          dsimp only
          rw [if_neg hconf]
        have hstepf : dedupStepFlag tthr sthr (acc, false) x = (acc, false) := by
          unfold dedupStepFlag
          rw [hf]
          dsimp only
          rw [if_neg hconf]
        rw [hstep]
        rw [hstepf] at hflag
        exact ih acc hc hflag

theorem dedupFold_of_clean (tthr sthr : ℚ) :
    ∀ (F acc : List Detection),
      (∀ x ∈ F, ∀ a ∈ acc, isDupMatch tthr sthr x a = false) →
      F.Pairwise (fun a b => isDupMatch tthr sthr b a = false) →
      F.foldl (dedupStep tthr sthr) acc = acc ++ F := by
  intro F
  induction F with
  | nil =>
    intro acc _ _
    simp
  | cons x xs ih =>
    intro acc hacc hpw
    rw [List.foldl_cons]
    have hf : acc.find? (isDupMatch tthr sthr x) = none :=
      List.find?_eq_none.mpr
        (fun a ha => by simp [hacc x (List.mem_cons_self x xs) a ha])
    have hstep : dedupStep tthr sthr acc x = acc ++ [x] := by
      unfold dedupStep
      rw [hf]
    rw [hstep, ih (acc ++ [x]) ?_ (List.pairwise_cons.mp hpw).2]
    · simp
    · intro y hy a ha
      rcases List.mem_append.mp ha with h | h
      · exact hacc y (List.mem_cons_of_mem x hy) a h
      · simp only [List.mem_singleton] at h
        subst h
        exact (List.pairwise_cons.mp hpw).1 y hy

theorem removeDuplicatesList_stable (tthr sthr : ℚ) (l : List Detection)
    (h : dedupReplacementOccurred tthr sthr l = false) :
    removeDuplicatesList tthr sthr (removeDuplicatesList tthr sthr l)
      = removeDuplicatesList tthr sthr l := by
  unfold dedupReplacementOccurred at h
  have hid : ∀ m : List Detection, m.length ≤ 1 →
      removeDuplicatesList tthr sthr m = m := by
    intro m hm
    unfold removeDuplicatesList
    rw [if_pos hm]
  by_cases hlen : l.length ≤ 1
  · rw [hid l hlen]
    exact hid l hlen
  · have houter : removeDuplicatesList tthr sthr l
        = l.foldl (dedupStep tthr sthr) [] := by
      unfold removeDuplicatesList
      rw [if_neg hlen]
    rw [if_neg hlen] at h
    rw [houter]
    have hclean := dedupFold_clean tthr sthr l [] List.Pairwise.nil h
    by_cases hFlen : (l.foldl (dedupStep tthr sthr) []).length ≤ 1
    · exact hid _ hFlen
    · unfold removeDuplicatesList
      rw [if_neg hFlen]
      rw [dedupFold_of_clean tthr sthr _ [] (by intro x _ a ha; simp at ha)
        hclean]
      rfl

/-- Claim C3, amended: a second `remove_duplicates` run with the same
thresholds removes nothing, provided the first run never replaced an
already-accepted entry by a higher-confidence candidate. When a
replacement does occur, the replacing candidate is re-appended at the end
of the accepted list without being compared to the entries after the one
it replaced, so the first run's output can still contain duplicate pairs
and a second run can remove more detections. -/
theorem removeDuplicates_idempotent_of_no_replacement (s : JsonWriterState)
    (tthr sthr : ℚ)
    (h : dedupReplacementOccurred tthr sthr s.data = false) :
    ((s.removeDuplicates tthr sthr).removeDuplicates tthr sthr).data
      = (s.removeDuplicates tthr sthr).data := by
  simp only [removeDuplicates_data]
  exact removeDuplicatesList_stable tthr sthr s.data h

/-- Witness for the amended C3: two dissimilar same-time detections
survive one dedup run with no replacement, and the second run changes
nothing. -/
theorem removeDuplicates_idempotent_witness :
    dedupReplacementOccurred 1 (3/5)
        (JsonWriterState.mk [mkDet 0 "aa" 1 1, mkDet 0 "bb" 1 2] 2).data
      = false ∧
    (((JsonWriterState.mk [mkDet 0 "aa" 1 1, mkDet 0 "bb" 1 2]
        2).removeDuplicates 1 (3/5)).removeDuplicates 1 (3/5)).data
      = ((JsonWriterState.mk [mkDet 0 "aa" 1 1, mkDet 0 "bb" 1 2]
          2).removeDuplicates 1 (3/5)).data :=
  ⟨by decide,
   removeDuplicates_idempotent_of_no_replacement
     (JsonWriterState.mk [mkDet 0 "aa" 1 1, mkDet 0 "bb" 1 2] 2) 1 (3/5)
     (by decide)⟩

/-- Counterexample to claim C3: on texts `"ab"`, `"cd"`, `"abcd"` (equal
timestamps, thresholds `1.0` and `0.6`) the first run replaces `"ab"` by
`"abcd"` and appends it after `"cd"` without comparing the two, so the
second run removes `"cd"` as a duplicate of `"abcd"` — deduplication is
not idempotent. -/
theorem removeDuplicates_not_idempotent_cex :
    (((JsonWriterState.mk [mkDet 0 "ab" (1/2) 1, mkDet 0 "cd" (1/2) 2,
          mkDet 0 "abcd" (9/10) 3] 3).removeDuplicates 1 (3/5)).data.map
        (fun d => d.text) = ["cd", "abcd"]) ∧
    ((((JsonWriterState.mk [mkDet 0 "ab" (1/2) 1, mkDet 0 "cd" (1/2) 2,
          mkDet 0 "abcd" (9/10) 3] 3).removeDuplicates 1
            (3/5)).removeDuplicates 1 (3/5)).data.map
        (fun d => d.text) = ["abcd"]) ∧
    ¬ ((((JsonWriterState.mk [mkDet 0 "ab" (1/2) 1, mkDet 0 "cd" (1/2) 2,
          mkDet 0 "abcd" (9/10) 3] 3).removeDuplicates 1
            (3/5)).removeDuplicates 1 (3/5)).data
        = (((JsonWriterState.mk [mkDet 0 "ab" (1/2) 1, mkDet 0 "cd" (1/2) 2,
            mkDet 0 "abcd" (9/10) 3] 3).removeDuplicates 1 (3/5)).data)) := by
  refine ⟨by decide, by decide, by decide⟩

/-- Counterexample to claim C4: the gate tests `not txt`, which is true
only for the exactly-empty string; a whitespace-only raw text with
confidence at least `0.30` passes the gate and is yielded with its text
stripped to empty, instead of being discarded. -/
theorem recognizeGate_whitespace_cex :
    pyStrip " " = "" ∧
    recognizeGate [⟨[(0, 0)], " ", 1/2⟩] = [((0, 0, 0, 0), "", 1/2)] := by
  constructor <;> decide

/-- Claim C4, amended: a raw detection is discarded by the gate exactly
when its text is the empty string or its confidence is below `0.30`;
every yielded detection has confidence at least `0.30` and carries the raw
text stripped of surrounding whitespace (empty when the raw text was
whitespace-only but nonempty). The gate runs inside `recognize`, before
any detection reaches the store or its user-configurable filter. -/
theorem recognizeGate_spec (items : List RawItem) :
    (∀ out, out ∈ recognizeGate items ↔
      ∃ it ∈ items, it.text ≠ "" ∧ (3/10 : ℚ) ≤ it.score ∧
        out = (bboxOfPoly it.poly, pyStrip it.text, it.score)) ∧
    (∀ out ∈ recognizeGate items, (3/10 : ℚ) ≤ out.2.2) := by
  have hmem : ∀ out, out ∈ recognizeGate items ↔
      ∃ it ∈ items, it.text ≠ "" ∧ (3/10 : ℚ) ≤ it.score ∧
        out = (bboxOfPoly it.poly, pyStrip it.text, it.score) := by
    intro out
    unfold recognizeGate
    rw [List.mem_filterMap]
    constructor
    · rintro ⟨it, hit, hout⟩
      by_cases hc : it.text = "" ∨ it.score < 3/10
      · rw [if_pos hc] at hout
        exact absurd hout (by simp)
      · rw [if_neg hc] at hout
        push_neg at hc
        exact ⟨it, hit, hc.1, hc.2, (Option.some_inj.mp hout).symm⟩
    · rintro ⟨it, hit, hne, hge, hout⟩
      refine ⟨it, hit, ?_⟩
      rw [if_neg (by push_neg; exact ⟨hne, hge⟩)]
      rw [hout]
  refine ⟨hmem, ?_⟩
  intro out hout
  obtain ⟨it, _, _, hge, hout⟩ := (hmem out).mp hout
  rw [hout]
  exact hge

/-- Witness for the amended C4: a surviving concrete item is yielded and
its confidence bound is produced by the theorem. -/
theorem recognizeGate_spec_witness :
    ((0, 0, 0, 0), "hi", (1/2 : ℚ)) ∈
        recognizeGate [⟨[(0, 0)], " hi ", 1/2⟩] ∧
    (3/10 : ℚ) ≤ (((0, 0, 0, 0), "hi", (1/2 : ℚ)) : (ℚ × ℚ × ℚ × ℚ) × String × ℚ).2.2 :=
  ⟨by decide,
   (recognizeGate_spec [⟨[(0, 0)], " hi ", 1/2⟩]).2
     ((0, 0, 0, 0), "hi", 1/2) (by decide)⟩

/-! ## Grouped-transcript refinement (claim C7) -/

theorem orderedInsert_filter_ts_self (x : Detection) :
    ∀ S : List Detection,
      (List.orderedInsert (fun a b => a.timestamp ≤ b.timestamp) x S).filter
          (fun d => d.timestamp = x.timestamp)
        = x :: S.filter (fun d => d.timestamp = x.timestamp) := by
  intro S
  induction S with
  | nil => simp [List.orderedInsert]
  | cons b S ih =>
    rw [List.orderedInsert]
    by_cases hle : x.timestamp ≤ b.timestamp
    · rw [if_pos hle, List.filter_cons, if_pos (by simp)]
    · have hbne : ¬ (b.timestamp = x.timestamp) := fun hbe =>
        hle (le_of_eq hbe.symm)
      rw [if_neg hle, List.filter_cons, if_neg (by simpa using hbne), ih,
        List.filter_cons, if_neg (by simpa using hbne)]

theorem orderedInsert_filter_ts_other (x : Detection) (t : ℚ)
    (hne : ¬ (x.timestamp = t)) :
    ∀ S : List Detection,
      (List.orderedInsert (fun a b => a.timestamp ≤ b.timestamp) x S).filter
          (fun d => d.timestamp = t)
        = S.filter (fun d => d.timestamp = t) := by
  intro S
  induction S with
  | nil => simp [List.orderedInsert, hne]
  | cons b S ih =>
    rw [List.orderedInsert]
    by_cases hle : x.timestamp ≤ b.timestamp
    · rw [if_pos hle, List.filter_cons, if_neg (by simpa using hne)]
    · rw [if_neg hle, List.filter_cons, List.filter_cons]
      by_cases hbt : b.timestamp = t
      · rw [if_pos (by simpa using hbt), if_pos (by simpa using hbt), ih]
      · rw [if_neg (by simpa using hbt), if_neg (by simpa using hbt), ih]

theorem sortByTimestamp_filter_ts (t : ℚ) :
    ∀ l : List Detection,
      (sortByTimestamp l).filter (fun d => d.timestamp = t)
        = l.filter (fun d => d.timestamp = t) := by
  intro l
  induction l with
  | nil => rfl
  | cons x l ih =>
    unfold sortByTimestamp at ih ⊢
    rw [List.insertionSort]
    by_cases hx : x.timestamp = t
    · subst hx
      rw [orderedInsert_filter_ts_self, ih, List.filter_cons, if_pos (by simp)]
    · rw [orderedInsert_filter_ts_other x t hx, ih, List.filter_cons,
        if_neg (by simpa using hx)]

theorem keptPairs_map_fst (l : List Detection) :
    (keptPairs l).map Prod.fst
      = (l.filter (fun d => pyStrip d.text ≠ "")).map
          (fun d => d.timestamp) := by
  induction l with
  | nil => rfl
  | cons x l ih =>
    by_cases hx : pyStrip x.text = ""
    · simp only [keptPairs, List.filterMap_cons, if_pos hx] at ih ⊢
      rw [List.filter_cons, if_neg (by simpa using hx)]
      exact ih
    · simp only [keptPairs, List.filterMap_cons, if_neg hx] at ih ⊢
      rw [List.filter_cons, if_pos (by simpa using hx), List.map_cons,
        List.map_cons, ih]

theorem keptPairs_filter_snd (l : List Detection) (t : ℚ) :
    ((keptPairs l).filter (fun p => p.1 = t)).map Prod.snd
      = (l.filter (fun d => d.timestamp = t ∧ pyStrip d.text ≠ "")).map
          (fun d => pyStrip d.text) := by
  induction l with
  | nil => rfl
  | cons x l ih =>
    simp only [keptPairs] at ih ⊢
    rw [List.filterMap_cons]
    by_cases hx : pyStrip x.text = ""
    · rw [if_pos hx, List.filter_cons, if_neg (by simp [hx])]
      exact ih
    · rw [if_neg hx, List.filter_cons, List.filter_cons]
      by_cases hts : x.timestamp = t
      · rw [if_pos (by simp [hts]), if_pos (by simp [hx, hts]), List.map_cons,
          List.map_cons, ih]
      · rw [if_neg (by simp [hts]), if_neg (by simp [hts]), ih]

theorem bucketFold_eq_keptPairs (l : List Detection) :
    ∀ bs, l.foldl
        (fun bs d =>
          if pyStrip d.text = "" then bs
          else bucketAdd bs d.timestamp (pyStrip d.text)) bs
      = (keptPairs l).foldl (fun bs p => bucketAdd bs p.1 p.2) bs := by
  induction l with
  | nil => intro bs; rfl
  | cons x l ih =>
    intro bs
    by_cases hx : pyStrip x.text = ""
    · simp only [keptPairs, List.filterMap_cons, if_pos hx, List.foldl_cons]
      exact ih bs
    · simp only [keptPairs, List.filterMap_cons, if_neg hx, List.foldl_cons]
      exact ih _

theorem keysDedupFirst_filter (q : ℚ → Bool) :
    ∀ l : List ℚ, keysDedupFirst (l.filter q) = (keysDedupFirst l).filter q := by
  intro l
  induction l with
  | nil => rfl
  | cons t r ih =>
    by_cases hq : q t = true
    · rw [List.filter_cons, if_pos hq, keysDedupFirst, keysDedupFirst, ih,
        List.filter_cons, if_pos hq, List.filter_filter, List.filter_filter]
      congr 1
      exact List.filter_congr (fun a _ => by rw [Bool.and_comm])
    · rw [List.filter_cons, if_neg hq, keysDedupFirst, List.filter_cons,
        if_neg hq, ih, List.filter_filter]
      exact (List.filter_congr (fun a _ => by
        by_cases hat : a = t
        · subst hat
          simp [hq]
        · simp [hat])).symm

theorem keysDedupFirst_mem (t : ℚ) :
    ∀ l : List ℚ, t ∈ keysDedupFirst l ↔ t ∈ l := by
  intro l
  induction l with
  | nil => simp [keysDedupFirst]
  | cons u r ih =>
    rw [keysDedupFirst]
    by_cases htu : t = u
    · subst htu
      simp
    · simp only [List.mem_cons, htu, false_or]
      rw [List.mem_filter]
      simp [htu, ih]

theorem keysDedupFirst_nodup : ∀ l : List ℚ, (keysDedupFirst l).Nodup := by
  intro l
  induction l with
  | nil => exact List.nodup_nil
  | cons u r ih =>
    rw [keysDedupFirst]
    refine List.Nodup.cons ?_ (ih.filter _)
    intro hmem
    have := (List.mem_filter.mp hmem).2
    simp at this

theorem keysDedupFirst_sublist : ∀ l : List ℚ, (keysDedupFirst l).Sublist l := by
  intro l
  induction l with
  | nil => exact List.Sublist.refl []
  | cons u r ih =>
    rw [keysDedupFirst]
    exact ((List.filter_sublist _).trans ih).cons₂ u

theorem bucketAdd_keys (bs : List (ℚ × List String)) (t : ℚ) (x : String) :
    (bucketAdd bs t x).map Prod.fst
      = if t ∈ bs.map Prod.fst then bs.map Prod.fst
        else bs.map Prod.fst ++ [t] := by
  induction bs with
  | nil => simp [bucketAdd]
  | cons b rest ih =>
    rcases b with ⟨u, xs⟩
    rw [bucketAdd]
    by_cases hut : u = t
    · rw [if_pos hut]
      subst hut
      simp
    · rw [if_neg hut, List.map_cons, List.map_cons, ih]
      by_cases hmem : t ∈ rest.map Prod.fst
      · rw [if_pos hmem, if_pos (by simp [hmem])]
      · rw [if_neg hmem]
        rw [if_neg (show ¬ t ∈ u :: rest.map Prod.fst from by
          simp only [List.mem_cons]
          push_neg
          exact ⟨fun h => hut h.symm, hmem⟩)]
        simp

theorem bucketFold_keys :
    ∀ (P : List (ℚ × String)) (bs : List (ℚ × List String)),
      (P.foldl (fun b p => bucketAdd b p.1 p.2) bs).map Prod.fst
        = bs.map Prod.fst
          ++ keysDedupFirst ((P.map Prod.fst).filter
              (fun u => decide (u ∉ bs.map Prod.fst))) := by
  intro P
  induction P with
  | nil =>
    intro bs
    simp [keysDedupFirst]
  | cons p P ih =>
    intro bs
    rcases p with ⟨t, x⟩
    rw [List.foldl_cons, ih (bucketAdd bs t x), bucketAdd_keys]
    by_cases hmem : t ∈ bs.map Prod.fst
    · rw [if_pos hmem]
      congr 2
      rw [List.map_cons, List.filter_cons, if_neg (by simp [hmem])]
    · rw [if_neg hmem, List.map_cons, List.filter_cons,
        if_pos (by simp [hmem]), keysDedupFirst]
      have hsplit : (P.map Prod.fst).filter
            (fun u => decide (u ∉ bs.map Prod.fst ++ [t]))
          = ((P.map Prod.fst).filter
              (fun u => decide (u ∉ bs.map Prod.fst))).filter
            (fun u => decide (u ≠ t)) := by
        rw [List.filter_filter]
        exact List.filter_congr (fun a _ => by
          by_cases h1 : a ∈ bs.map Prod.fst <;> by_cases h2 : a = t <;>
            simp [h1, h2])
      rw [hsplit, keysDedupFirst_filter]
      simp [List.append_assoc]

theorem bucketVal_nil (t : ℚ) : bucketVal [] t = [] := rfl

theorem bucketVal_bucketAdd (bs : List (ℚ × List String)) (u : ℚ) (x : String)
    (t : ℚ) :
    bucketVal (bucketAdd bs u x) t
      = if u = t then bucketVal bs t ++ [x] else bucketVal bs t := by
  induction bs with
  | nil =>
    by_cases hut : u = t <;>
      simp [bucketVal, bucketAdd, List.find?_cons, hut]
  | cons b rest ih =>
    rcases b with ⟨k, xs⟩
    rw [bucketAdd]
    unfold bucketVal at ih ⊢
    by_cases hku : k = u
    · subst hku
      rw [if_pos rfl]
      by_cases hkt : k = t
      · rw [List.find?_cons_of_pos _ (by simpa using hkt),
          List.find?_cons_of_pos _ (by simpa using hkt), if_pos hkt]
        simp
      · rw [List.find?_cons_of_neg _ (by simpa using hkt),
          List.find?_cons_of_neg _ (by simpa using hkt), if_neg hkt]
    · rw [if_neg hku]
      by_cases hkt : k = t
      · have hut2 : ¬ (u = t) := fun h => hku (hkt.trans h.symm)
        rw [List.find?_cons_of_pos _ (by simpa using hkt),
          List.find?_cons_of_pos _ (by simpa using hkt), if_neg hut2]
      · rw [List.find?_cons_of_neg _ (by simpa using hkt),
          List.find?_cons_of_neg _ (by simpa using hkt)]
        exact ih

theorem bucketVal_fold (P : List (ℚ × String)) :
    ∀ (bs : List (ℚ × List String)) (t : ℚ),
      bucketVal (P.foldl (fun b p => bucketAdd b p.1 p.2) bs) t
        = bucketVal bs t ++ (P.filter (fun p => p.1 = t)).map Prod.snd := by
  induction P with
  | nil =>
    intro bs t
    simp
  | cons p P ih =>
    intro bs t
    rcases p with ⟨u, x⟩
    rw [List.foldl_cons, ih, bucketVal_bucketAdd]
    by_cases hut : u = t
    · rw [if_pos hut, List.filter_cons, if_pos (by simpa using hut)]
      simp
    · rw [if_neg hut, List.filter_cons, if_neg (by simpa using hut)]

theorem assoc_reconstruct :
    ∀ bs : List (ℚ × List String), (bs.map Prod.fst).Nodup →
      bs = (bs.map Prod.fst).map (fun t => (t, bucketVal bs t)) := by
  intro bs
  induction bs with
  | nil => intro _; rfl
  | cons b rest ih =>
    rcases b with ⟨k, xs⟩
    intro hnd
    rw [List.map_cons] at hnd
    obtain ⟨hknotin, hndrest⟩ := List.nodup_cons.mp hnd
    have hk : bucketVal ((k, xs) :: rest) k = xs := by
      simp [bucketVal, List.find?_cons]
    have hmap : (rest.map Prod.fst).map
          (fun t => (t, bucketVal ((k, xs) :: rest) t))
        = (rest.map Prod.fst).map (fun t => (t, bucketVal rest t)) := by
      refine List.map_congr_left (fun t ht => ?_)
      have hne : ¬ (k = t) := fun h => hknotin (h ▸ ht)
      simp [bucketVal, List.find?_cons, hne]
    rw [List.map_cons, List.map_cons, hk, hmap]
    rw [← ih hndrest]

theorem roundHalfEven_intCast (z : ℤ) : roundHalfEven (z : ℚ) = z := by
  unfold roundHalfEven
  simp

theorem roundQ_milliInt (x : ℚ) : MilliInt (roundQ 3 x) := by
  refine ⟨roundHalfEven (x * (10 : ℚ) ^ (3 : ℕ)), ?_⟩
  unfold roundQ
  rw [show ((10 : ℚ) ^ (3 : ℕ)) = 1000 from by norm_num]
  exact div_mul_cancel₀ _ (by norm_num)

theorem floor_eq_fdiv_of_milli (t : ℚ) (z : ℤ) (hz : t * 1000 = z) :
    ⌊t⌋ = z.fdiv 1000 := by
  have ht : t = (z : ℚ) / 1000 := by
    rw [eq_div_iff (by norm_num : (1000 : ℚ) ≠ 0)]
    exact hz
  rw [ht, show ((1000 : ℚ)) = ((1000 : ℕ) : ℚ) from by norm_num,
    Rat.floor_intCast_div_natCast]
  exact (Int.fdiv_eq_ediv z (by norm_num)).symm

theorem fmtMMSS_eq_specStamp (t : ℚ) (h : MilliInt t) :
    fmtMMSS false t = specStamp t := by
  obtain ⟨z, hz⟩ := h
  have h1 : roundHalfEven (t * 1000) = z := by rw [hz, roundHalfEven_intCast]
  have h2 : ⌊t⌋ = z.fdiv 1000 := floor_eq_fdiv_of_milli t z hz
  simp [fmtMMSS, specStamp, h1, h2]

theorem dedupStep_mem (tthr sthr : ℚ) (acc : List Detection) (cur x : Detection)
    (hx : x ∈ dedupStep tthr sthr acc cur) : x ∈ acc ∨ x = cur := by
  unfold dedupStep at hx
  cases hf : acc.find? (isDupMatch tthr sthr cur) with
  | none =>
    rw [hf] at hx
    rcases List.mem_append.mp hx with h | h
    · exact Or.inl h
    · simp only [List.mem_singleton] at h
      exact Or.inr h
  | some e =>
    rw [hf] at hx
    dsimp only at hx
    split_ifs at hx with hc
    · rcases List.mem_append.mp hx with h | h
      · exact Or.inl ((acc.erase_sublist e).subset h)
      · simp only [List.mem_singleton] at h
        exact Or.inr h
    · exact Or.inl hx

theorem dedupFold_mem (tthr sthr : ℚ) :
    ∀ (L acc : List Detection) (x : Detection),
      x ∈ L.foldl (dedupStep tthr sthr) acc → x ∈ acc ∨ x ∈ L := by
  intro L
  induction L with
  | nil =>
    intro acc x hx
    exact Or.inl hx
  | cons c L ih =>
    intro acc x hx
    rw [List.foldl_cons] at hx
    rcases ih _ x hx with h | h
    · rcases dedupStep_mem tthr sthr acc c x h with h2 | h2
      · exact Or.inl h2
      · exact Or.inr (by simp [h2])
    · exact Or.inr (List.mem_cons_of_mem c h)

theorem removeDuplicatesList_subset (tthr sthr : ℚ) (l : List Detection)
    (x : Detection) (hx : x ∈ removeDuplicatesList tthr sthr l) : x ∈ l := by
  unfold removeDuplicatesList at hx
  split_ifs at hx with h
  · exact hx
  · rcases dedupFold_mem tthr sthr l [] x hx with h2 | h2
    · simp at h2
    · exact h2

theorem reachable_milliInt (s : JsonWriterState) (h : ReachableWriter s) :
    ∀ d ∈ s.data, MilliInt d.timestamp := by
  induction h with
  | init =>
    intro d hd
    simp [initWriter] at hd
  | add s ts bbox txt conf hr ih =>
    intro d hd
    simp only [JsonWriterState.add] at hd
    rcases List.mem_append.mp hd with h1 | h1
    · exact ih d h1
    · simp only [List.mem_singleton] at h1
      rw [h1]
      exact roundQ_milliInt ts
  | filter s c hr ih =>
    intro d hd
    rw [filterByConfidence_data] at hd
    exact ih d (List.mem_of_mem_filter hd)
  | dedup s t σ hr ih =>
    intro d hd
    rw [removeDuplicates_data] at hd
    exact ih d (removeDuplicatesList_subset t σ s.data d hd)

theorem exportGroupedLines_eq_spec (sep : String) (data : List Detection)
    (hmil : ∀ d ∈ data, MilliInt d.timestamp) :
    exportGroupedLines false sep data = specGroupedLines sep data := by
  have hperm : (sortByTimestamp data).Perm data :=
    List.perm_insertionSort _ data
  have hsorted : (sortByTimestamp data).Pairwise
      (fun a b => a.timestamp ≤ b.timestamp) :=
    List.sorted_insertionSort _ data
  set P := keptPairs (sortByTimestamp data) with hP
  set buckets := P.foldl (fun b p => bucketAdd b p.1 p.2) [] with hbuckets
  have hkeys : buckets.map Prod.fst = keysDedupFirst (P.map Prod.fst) := by
    rw [hbuckets, bucketFold_keys P []]
    have hfil : (P.map Prod.fst).filter
          (fun u => decide (u ∉ ([] : List (ℚ × List String)).map Prod.fst))
        = P.map Prod.fst :=
      List.filter_eq_self.mpr (fun a _ => by simp)
    rw [hfil]
    rfl
  have hnodupkeys : (buckets.map Prod.fst).Nodup := by
    rw [hkeys]
    exact keysDedupFirst_nodup _
  have hval : ∀ t, bucketVal buckets t
      = (P.filter (fun p => p.1 = t)).map Prod.snd := by
    intro t
    rw [hbuckets, bucketVal_fold]
    simp [bucketVal]
  have hbe : buckets = (keysDedupFirst (P.map Prod.fst)).map
      (fun t => (t, (P.filter (fun p => p.1 = t)).map Prod.snd)) := by
    conv_lhs => rw [assoc_reconstruct buckets hnodupkeys]
    rw [hkeys]
    exact List.map_congr_left (fun t _ => by rw [hval t])
  have hexport : exportGroupedLines false sep data
      = (keysDedupFirst (P.map Prod.fst)).map (fun t =>
          fmtMMSS false t ++ " - " ++
            String.intercalate sep
              ((P.filter (fun p => p.1 = t)).map Prod.snd)) := by
    unfold exportGroupedLines
    rw [bucketFold_eq_keptPairs, ← hP, ← hbuckets, hbe, List.map_map]
    rfl
  have hPfst : P.map Prod.fst
      = ((sortByTimestamp data).filter (fun d => pyStrip d.text ≠ "")).map
          (fun d => d.timestamp) := keptPairs_map_fst _
  have hKsorted : (keysDedupFirst (P.map Prod.fst)).Pairwise
      (fun a b : ℚ => a ≤ b) := by
    apply List.Pairwise.sublist (keysDedupFirst_sublist _)
    rw [hPfst, List.pairwise_map]
    exact hsorted.sublist (List.filter_sublist _)
  have hKnodup := keysDedupFirst_nodup (P.map Prod.fst)
  have hSKsorted : ((keysDedupFirst ((data.filter
        (fun d => pyStrip d.text ≠ "")).map
          (fun d => d.timestamp))).insertionSort
        (fun a b => a ≤ b)).Pairwise (fun a b : ℚ => a ≤ b) :=
    List.sorted_insertionSort _ _
  have hSKnodup : ((keysDedupFirst ((data.filter
        (fun d => pyStrip d.text ≠ "")).map
          (fun d => d.timestamp))).insertionSort
        (fun a b => a ≤ b)).Nodup :=
    (List.perm_insertionSort _ _).nodup_iff.mpr (keysDedupFirst_nodup _)
  have hmemiff : ∀ a, a ∈ keysDedupFirst (P.map Prod.fst) ↔
      a ∈ ((keysDedupFirst ((data.filter
        (fun d => pyStrip d.text ≠ "")).map
          (fun d => d.timestamp))).insertionSort (fun a b => a ≤ b)) := by
    intro a
    rw [keysDedupFirst_mem, (List.perm_insertionSort _ _).mem_iff,
      keysDedupFirst_mem, hPfst]
    exact ((hperm.filter _).map _).mem_iff
  have hK_eq_SK : keysDedupFirst (P.map Prod.fst)
      = ((keysDedupFirst ((data.filter
        (fun d => pyStrip d.text ≠ "")).map
          (fun d => d.timestamp))).insertionSort (fun a b => a ≤ b)) :=
    List.eq_of_perm_of_sorted
      ((List.perm_ext_iff_of_nodup hKnodup hSKnodup).mpr hmemiff)
      hKsorted hSKsorted
  have hcontent : ∀ t, t ∈ keysDedupFirst (P.map Prod.fst) →
      (P.filter (fun p => p.1 = t)).map Prod.snd
        = ((data.filter (fun d => pyStrip d.text ≠ "")).filter
            (fun d => d.timestamp = t)).map (fun d => pyStrip d.text) := by
    intro t _
    rw [keptPairs_filter_snd]
    have hsplit : ∀ m : List Detection,
        m.filter (fun d => d.timestamp = t ∧ pyStrip d.text ≠ "")
          = (m.filter (fun d => d.timestamp = t)).filter
              (fun d => pyStrip d.text ≠ "") := by
      intro m
      rw [List.filter_filter]
      exact (List.filter_congr (fun a _ => by
        by_cases h1 : a.timestamp = t <;> by_cases h2 : pyStrip a.text = "" <;>
          simp [h1, h2])).symm
    have hstab : (sortByTimestamp data).filter
          (fun d => d.timestamp = t ∧ pyStrip d.text ≠ "")
        = data.filter (fun d => d.timestamp = t ∧ pyStrip d.text ≠ "") := by
      rw [hsplit, hsplit, sortByTimestamp_filter_ts]
    have hsplit2 : data.filter (fun d => d.timestamp = t ∧ pyStrip d.text ≠ "")
        = (data.filter (fun d => pyStrip d.text ≠ "")).filter
            (fun d => d.timestamp = t) := by
      rw [List.filter_filter]
      exact (List.filter_congr (fun a _ => by
        by_cases h1 : a.timestamp = t <;> by_cases h2 : pyStrip a.text = "" <;>
          simp [h1, h2])).symm
    rw [hstab, hsplit2]
  have hstamp : ∀ t, t ∈ keysDedupFirst (P.map Prod.fst) →
      fmtMMSS false t = specStamp t := by
    intro t ht
    apply fmtMMSS_eq_specStamp
    rw [keysDedupFirst_mem, hPfst] at ht
    rcases List.mem_map.mp ht with ⟨d, hd, hdt⟩
    rw [← hdt]
    exact hmil d (hperm.subset (List.mem_of_mem_filter hd))
  rw [hexport]
  simp only [specGroupedLines]
  rw [← hK_eq_SK]
  exact List.map_congr_left (fun t ht => by rw [hstamp t ht, hcontent t ht])

/-- Claim C7: for every store the pipeline can reach, the grouped
transcript has exactly one line per distinct timestamp among the stored
detections with non-empty trimmed text, the lines appear in ascending
timestamp order with ties inside a bucket keeping insertion order, and
each line is the `[MM:SS]` stamp of the timestamp floored to whole
seconds, then `" - "`, then the bucket's texts joined with the separator
(reachability supplies that stored timestamps are exact milliseconds, the
only case in which the code's round-then-divide stamp is the floor). -/
theorem exportGrouped_matches_spec (s : JsonWriterState) (sep : String)
    (h : ReachableWriter s) :
    exportGroupedLines false sep s.data = specGroupedLines sep s.data :=
  exportGroupedLines_eq_spec sep s.data (reachable_milliInt s h)

/-- Witness for C7: a store reached by three `add` calls (two sharing a
timestamp, one text needing a strip) exports exactly the spec's lines. -/
theorem exportGrouped_matches_spec_witness :
    exportGroupedLines false " | "
        (((initWriter.add 1 (0, 0, 2, 2) " hi " (9/10)).add 1 (0, 0, 2, 2)
            "yo" (4/5)).add (61/2) (0, 0, 1, 1) "a" (3/5)).data
      = specGroupedLines " | "
        (((initWriter.add 1 (0, 0, 2, 2) " hi " (9/10)).add 1 (0, 0, 2, 2)
            "yo" (4/5)).add (61/2) (0, 0, 1, 1) "a" (3/5)).data ∧
    exportGroupedLines false " | "
        (((initWriter.add 1 (0, 0, 2, 2) " hi " (9/10)).add 1 (0, 0, 2, 2)
            "yo" (4/5)).add (61/2) (0, 0, 1, 1) "a" (3/5)).data
      = ["[00:01] - hi | yo", "[00:30] - a"] :=
  ⟨exportGrouped_matches_spec _ " | "
    (ReachableWriter.add _ _ _ _ _ (ReachableWriter.add _ _ _ _ _
      (ReachableWriter.add _ _ _ _ _ ReachableWriter.init))),
   by decide⟩
